import Mathlib

/-!
Verification development for the pyGSTi CHP circuit-simulation core:
composable operator representations (Static / Stochastic / Composed /
Embedded nodes), circuit translation to a flat instruction program,
external-shot execution with retries, and outcome aggregation with
marginalization.  The repository snapshot contains only notebooks that
call this core, so the operations themselves are modelled from the
specification, faithfully to its words.
-/

namespace PyGSTiCHP

/-- A primitive simulator instruction: an opcode token followed by
integer qubit operands (one line of the CHP instruction grammar). -/
structure Instr where
  op : String
  args : List Nat
  deriving DecidableEq, Repr

/-- Modelled from the spec: remapping of one instruction's local qubit
indices onto target labels (index `i` goes to `target_labels[i]`). -/
def remapInstr (targets : List Nat) (ins : Instr) : Instr :=
  { op := ins.op, args := ins.args.map (fun a => targets.getD a 0) }

/-- Sampling state: one draw counter per pseudorandom-sequence seed
(each `Stochastic` node owns a seeded sequence; the counter records how
many values that sequence has already produced). -/
abbrev RandState := List (Nat × Nat)

/-- Number of draws already made from the sequence with the given seed. -/
def countOf (s : Nat) : RandState → Nat
  | [] => 0
  | (k, n) :: rest => if k = s then n else countOf s rest

/-- Record one more draw from the sequence with the given seed. -/
def bump (s : Nat) : RandState → RandState
  | [] => [(s, 1)]
  | (k, n) :: rest => if k = s then (k, n + 1) :: rest else (k, n) :: bump s rest

/-- Modelled from the spec: selection of a `Stochastic` alternative.
Walks the alternatives in declaration order keeping a running cumulative
weight `acc`, and returns the instruction sequence of the first
alternative whose cumulative weight exceeds the drawn value `r`; when no
cumulative weight exceeds `r` the implicit identity (the empty
instruction sequence) is selected. -/
def selectAltFrom (r : ℚ) : ℚ → List (ℚ × List Instr) → List Instr
  | _, [] => []
  | acc, (w, seq) :: rest => if r < acc + w then seq else selectAltFrom r (acc + w) rest

/-- Select an alternative starting from cumulative weight zero. -/
def selectAlt (alts : List (ℚ × List Instr)) (r : ℚ) : List Instr :=
  selectAltFrom r 0 alts

/-- Total weight of a list of alternatives. -/
def totalWeight (alts : List (ℚ × List Instr)) : ℚ :=
  (alts.map Prod.fst).sum

/-- Cumulative weight of the alternatives up to and including index `i`. -/
def cumWeight (alts : List (ℚ × List Instr)) (i : Nat) : ℚ :=
  ((alts.take (i + 1)).map Prod.fst).sum

/-- Modelled from the spec: the tagged-variant operator-representation
tree.  `static` holds a fixed instruction sequence over local indices;
`stochastic` holds weighted alternatives plus the seed of its owned
pseudorandom sequence; `composed` concatenates children in order;
`embedded` maps a child's local indices into the enclosing register. -/
inductive OpRep where
  | static (instrs : List Instr)
  | stochastic (alts : List (ℚ × List Instr)) (seed : Nat)
  | composed (children : List OpRep)
  | embedded (mapping : List Nat) (child : OpRep)
  deriving Repr

/-- Modelled from the spec: `get_instructions(target_labels)`.  `rand`
gives, for each seed, the node's owned pseudorandom sequence of uniform
values in `[0,1)` (draw `n` of seed `s` is `rand s n`); the `RandState`
threads each sequence's position.  `static` remaps its fixed
instructions onto the targets; `stochastic` draws one value, selects an
alternative by cumulative weight, remaps it, and advances its sequence
by exactly one draw; `composed` concatenates children's results in
order; `embedded` applies its stored index mapping to the target labels
and calls its child. -/
def getInstructions (rand : Nat → Nat → ℚ) :
    OpRep → List Nat → RandState → List Instr × RandState
  | .static instrs, targets, st => (instrs.map (remapInstr targets), st)
  | .stochastic alts seed, targets, st =>
      ((selectAlt alts (rand seed (countOf seed st))).map (remapInstr targets),
        bump seed st)
  | .composed [], _, st => ([], st)
  | .composed (c :: cs), targets, st =>
      let p := getInstructions rand c targets st
      let q := getInstructions rand (.composed cs) targets p.2
      (p.1 ++ q.1, q.2)
  | .embedded mapping child, targets, st =>
      getInstructions rand child (mapping.map (fun i => targets.getD i 0)) st

/-- Number of `stochastic` leaves with the given seed occurring in a
node (each occurrence performs one independent draw). -/
def occCount (s : Nat) : OpRep → Nat
  | .static _ => 0
  | .stochastic _ seed => if seed = s then 1 else 0
  | .composed [] => 0
  | .composed (c :: cs) => occCount s c + occCount s (.composed cs)
  | .embedded _ c => occCount s c

/-- Run `get_instructions` on the same node `n` times in a row,
threading the sampling state, and collect the emitted sequences. -/
def runCalls (rand : Nat → Nat → ℚ) (node : OpRep) (targets : List Nat) :
    RandState → Nat → List (List Instr)
  | _, 0 => []
  | st, n + 1 =>
      let p := getInstructions rand node targets st
      p.1 :: runCalls rand node targets p.2 n

/-- Well-formedness of a node at a given arity: every instruction of a
leaf uses local indices below the arity, and an embedding's mapping
stays inside the enclosing register while its child is well formed at
the mapping's length. -/
def wfRep : OpRep → Nat → Bool
  | .static instrs, n => instrs.all (fun ins => ins.args.all (fun a => a < n))
  | .stochastic alts _, n =>
      alts.all (fun p => p.2.all (fun ins => ins.args.all (fun a => a < n)))
  | .composed [], _ => true
  | .composed (c :: cs), n => wfRep c n && wfRep (.composed cs) n
  | .embedded mapping child, n =>
      mapping.all (fun a => a < n) && wfRep child mapping.length

/-- One parallel entry of a circuit layer: an operator label and the
target qubits it acts on. -/
structure LayerEntry where
  label : String
  targets : List Nat
  deriving DecidableEq, Repr

/-- A layer: the entries occurring in parallel at one time step. -/
abbrev Layer := List LayerEntry

/-- Translation-time errors. -/
inductive TransError where
  | unknownOperator
  | invalidLayer
  deriving DecidableEq, Repr

/-- Resolve an operator label through the lookup table. -/
def lookupTable (table : List (String × OpRep)) (l : String) : Option OpRep :=
  match table with
  | [] => none
  | (k, v) :: rest => if k = l then some v else lookupTable rest l

/-- Two layer entries act on disjoint target qubits. -/
def entriesDisjoint (a b : LayerEntry) : Bool :=
  a.targets.all (fun q => ! b.targets.contains q)

/-- A layer is valid when no two of its entries share a target qubit. -/
def layerOk : Layer → Bool
  | [] => true
  | e :: rest => rest.all (entriesDisjoint e) && layerOk rest

/-- The lexicographically smallest target-qubit label of an entry. -/
def minTarget (e : LayerEntry) : Nat :=
  e.targets.foldr min (e.targets.headD 0)

/-- Modelled from the spec: canonicalize a layer's parallel entries into
a deterministic order, sorting by smallest target-qubit label. -/
def canonicalize (layer : Layer) : Layer :=
  layer.mergeSort (fun a b => Nat.ble (minTarget a) (minTarget b))

/-- Translate the entries of one canonicalized layer, resolving each
label through the table and threading the sampling state. -/
def translateEntries (rand : Nat → Nat → ℚ) (table : List (String × OpRep)) :
    List LayerEntry → RandState → Except TransError (List Instr × RandState)
  | [], st => .ok ([], st)
  | e :: es, st =>
    match lookupTable table e.label with
    | none => .error .unknownOperator
    | some rep =>
      let p := getInstructions rand rep e.targets st
      match translateEntries rand table es p.2 with
      | .error err => .error err
      | .ok q => .ok (p.1 ++ q.1, q.2)

/-- Translate one layer: reject layers whose entries share a target
qubit, otherwise translate the canonicalized entries. -/
def translateLayer (rand : Nat → Nat → ℚ) (table : List (String × OpRep))
    (layer : Layer) (st : RandState) : Except TransError (List Instr × RandState) :=
  if layerOk layer then translateEntries rand table (canonicalize layer) st
  else .error .invalidLayer

/-- Translate the layers in time order, concatenating their programs. -/
def translateLayers (rand : Nat → Nat → ℚ) (table : List (String × OpRep)) :
    List Layer → RandState → Except TransError (List Instr × RandState)
  | [], st => .ok ([], st)
  | l :: ls, st =>
    match translateLayer rand table l st with
    | .error e => .error e
    | .ok p =>
      match translateLayers rand table ls p.2 with
      | .error e => .error e
      | .ok q => .ok (p.1 ++ q.1, q.2)

/-- Modelled from the spec: the circuit translator.  Emits a reset
instruction for all `N` qubits, the per-layer instructions in time
order, and a measurement instruction per designated qubit; fails with a
translation error and produces nothing otherwise. -/
def translate (rand : Nat → Nat → ℚ) (table : List (String × OpRep)) (N : Nat)
    (measured : List Nat) (layers : List Layer) (st : RandState) :
    Except TransError (List Instr × RandState) :=
  match translateLayers rand table layers st with
  | .error e => .error e
  | .ok p =>
      .ok (Instr.mk "r" (List.range N) :: p.1 ++ measured.map (fun q => Instr.mk "m" [q]),
        p.2)

/-- Execution-time per-shot errors of the external simulator adapter. -/
inductive ShotError where
  | simulatorExecution
  | parse
  | timeout
  deriving DecidableEq, Repr

/-- Modelled from the spec: run one shot starting at attempt `a` with
`r` retries remaining.  Each attempt spawns one external process (the
second component counts spawned processes); a failed attempt consumes
one retry, and the shot fails once the budget is exhausted. -/
def runShotFrom (oracle : Nat → Except ShotError (List Bool)) (a : Nat) :
    Nat → Except ShotError (List Bool) × Nat
  | 0 => (oracle a, 1)
  | r + 1 =>
    match oracle a with
    | .ok res => (.ok res, 1)
    | .error _ =>
      let p := runShotFrom oracle (a + 1) r
      (p.1, p.2 + 1)

/-- Run one shot with retry budget `R`, starting at attempt 0. -/
def runShot (oracle : Nat → Except ShotError (List Bool)) (R : Nat) :
    Except ShotError (List Bool) × Nat :=
  runShotFrom oracle 0 R

/-- Modelled from the spec: run shots `i, i+1, ...` until the requested
count is reached, failing the whole run as soon as one shot exhausts its
retry budget; also counts all spawned processes. -/
def runShotsFrom (oracle : Nat → Nat → Except ShotError (List Bool)) (R : Nat) :
    Nat → Nat → Except ShotError (List (List Bool)) × Nat
  | _, 0 => (.ok [], 0)
  | i, s + 1 =>
    let p := runShot (oracle i) R
    match p.1 with
    | .error e => (.error e, p.2)
    | .ok bits =>
      let q := runShotsFrom oracle R (i + 1) s
      (match q.1 with
        | .error e => .error e
        | .ok rest => .ok (bits :: rest), p.2 + q.2)

/-- Run `S` shots with retry budget `R`. -/
def runShots (oracle : Nat → Nat → Except ShotError (List Bool)) (R S : Nat) :
    Except ShotError (List (List Bool)) × Nat :=
  runShotsFrom oracle R 0 S

/-- Construction-time configuration errors. -/
inductive AggError where
  | configurationError
  deriving DecidableEq, Repr

/-- Number of occurrences of one bitstring among the shot results. -/
def occurrences (b : List Bool) : List (List Bool) → Nat
  | [] => 0
  | x :: rest => (if x = b then 1 else 0) + occurrences b rest

/-- The distinct bitstrings of a list, in first-occurrence order. -/
def distinctKeys : List (List Bool) → List (List Bool)
  | [] => []
  | b :: rest => b :: (distinctKeys rest).filter (fun x => ! (x == b))

/-- Modelled from the spec: the outcome aggregator.  Rejects fewer than
one shot with a configuration error; otherwise maps each distinct
observed bitstring to its occurrence frequency, unobserved bitstrings
being implicitly zero. -/
def aggregate (shots : List (List Bool)) : Except AggError (List (List Bool × ℚ)) :=
  if shots.length < 1 then .error .configurationError
  else
    .ok ((distinctKeys shots).map
      (fun b => (b, (occurrences b shots : ℚ) / (shots.length : ℚ))))

/-- Position of a qubit label inside an ordered qubit set. -/
def posIn (Q : List Nat) (q : Nat) : Nat :=
  Q.findIdx (fun x => x == q)

/-- Restriction of a bitstring over qubit set `Q` to the subset `Qp`,
keeping exactly the bits of the qubits in `Qp`. -/
def restrictTo (Q Qp : List Nat) (b : List Bool) : List Bool :=
  Qp.map (fun q => b.getD (posIn Q q) false)

/-- Total probability a sparse distribution assigns to one bitstring
(zero when the bitstring is absent). -/
def probOf (dist : List (List Bool × ℚ)) (b : List Bool) : ℚ :=
  ((dist.filter (fun p => p.1 == b)).map Prod.snd).sum

/-- Modelled from the spec: marginalization of a distribution over
qubit set `Q` to a subset `Qp`, summing the probabilities of all
bitstrings that agree on `Qp` and ignoring bits outside `Qp`. -/
def marginalize (Q Qp : List Nat) (dist : List (List Bool × ℚ)) :
    List (List Bool × ℚ) :=
  (distinctKeys (dist.map (fun p => restrictTo Q Qp p.1))).map
    (fun k =>
      (k, ((dist.filter (fun p => restrictTo Q Qp p.1 == k)).map Prod.snd).sum))

/-- Errors escalated by the `probabilities` facade. -/
inductive PipelineError where
  | config
  | trans (e : TransError)
  | shot (e : ShotError)
  deriving DecidableEq, Repr

/-- Modelled from the spec: the forward-simulator facade.  Validates the
shot count, translates the circuit (failing fast with zero spawned
processes on a translation error), runs the shots with retries, and
aggregates the results; the second component is the number of external
processes spawned. -/
def probabilities (rand : Nat → Nat → ℚ) (table : List (String × OpRep))
    (N : Nat) (measured : List Nat) (layers : List Layer)
    (oracle : Nat → Nat → Except ShotError (List Bool)) (S R : Nat)
    (st : RandState) : Except PipelineError (List (List Bool × ℚ)) × Nat :=
  if S < 1 then (.error .config, 0)
  else
    match translate rand table N measured layers st with
    | .error e => (.error (.trans e), 0)
    | .ok _ =>
      let p := runShots oracle R S
      match p.1 with
      | .error e => (.error (.shot e), p.2)
      | .ok shotResults =>
        match aggregate shotResults with
        | .error _ => (.error .config, p.2)
        | .ok dist => (.ok dist, p.2)

theorem countOf_bump_self (s : Nat) (st : RandState) :
    countOf s (bump s st) = countOf s st + 1 := by
  induction st with
  | nil => simp [bump, countOf]
  | cons p rest ih =>
    obtain ⟨k, n⟩ := p
    by_cases h : k = s
    · simp [bump, countOf, h]
    · simp [bump, countOf, h, ih]

theorem countOf_bump_other (s s' : Nat) (st : RandState) (h : s ≠ s') :
    countOf s (bump s' st) = countOf s st := by
  have h' : ¬ s' = s := fun hc => h hc.symm
  induction st with
  | nil => simp [bump, countOf, h']
  | cons p rest ih =>
    obtain ⟨k, n⟩ := p
    by_cases hk : k = s'
    · subst hk
      simp [bump, countOf, h']
    · simp [bump, countOf, hk, ih]

theorem cumWeight_cons_zero (w : ℚ) (seq : List Instr) (rest : List (ℚ × List Instr)) :
    cumWeight ((w, seq) :: rest) 0 = w := by
  simp [cumWeight]

theorem cumWeight_cons_succ (w : ℚ) (seq : List Instr) (rest : List (ℚ × List Instr))
    (j : Nat) : cumWeight ((w, seq) :: rest) (j + 1) = w + cumWeight rest j := by
  simp [cumWeight]

theorem totalWeight_nonneg (alts : List (ℚ × List Instr))
    (hw : ∀ p ∈ alts, 0 ≤ p.1) : 0 ≤ totalWeight alts := by
  refine List.sum_nonneg ?_
  intro x hx
  obtain ⟨p, hp, rfl⟩ := List.mem_map.mp hx
  exact hw p hp

theorem selectAltFrom_total_le (r : ℚ) :
    ∀ (alts : List (ℚ × List Instr)) (acc : ℚ), (∀ p ∈ alts, 0 ≤ p.1) →
      acc + totalWeight alts ≤ r → selectAltFrom r acc alts = [] := by
  intro alts
  induction alts with
  | nil => intro acc _ _; rfl
  | cons p rest ih =>
    obtain ⟨w, seq⟩ := p
    intro acc hw hle
    have hrest : 0 ≤ totalWeight rest :=
      totalWeight_nonneg rest (fun q hq => hw q (List.mem_cons_of_mem _ hq))
    have htot : totalWeight ((w, seq) :: rest) = w + totalWeight rest := by
      simp [totalWeight]
    have h1 : ¬ r < acc + w := by rw [htot] at hle; push_neg; linarith
    have h2 : (acc + w) + totalWeight rest ≤ r := by rw [htot] at hle; linarith
    simp only [selectAltFrom, h1, if_false]
    exact ih (acc + w) (fun q hq => hw q (List.mem_cons_of_mem _ hq)) h2

theorem selectAltFrom_first (r : ℚ) :
    ∀ (alts : List (ℚ × List Instr)) (acc : ℚ) (i : Nat) (hi : i < alts.length),
      (∀ j, j < i → acc + cumWeight alts j ≤ r) →
      r < acc + cumWeight alts i →
      selectAltFrom r acc alts = (alts.get ⟨i, hi⟩).2 := by
  intro alts
  induction alts with
  | nil => intro acc i hi; simp at hi
  | cons p rest ih =>
    obtain ⟨w, seq⟩ := p
    intro acc i hi hprev hlt
    cases i with
    | zero =>
      rw [cumWeight_cons_zero] at hlt
      simp [selectAltFrom, hlt]
    | succ j =>
      have h0 : acc + w ≤ r := by
        have := hprev 0 (Nat.succ_pos j)
        rwa [cumWeight_cons_zero] at this
      have hnot : ¬ r < acc + w := not_lt.mpr h0
      simp only [selectAltFrom, hnot, if_false]
      have hj : j < rest.length := by simpa using hi
      have hprev' : ∀ j', j' < j → (acc + w) + cumWeight rest j' ≤ r := by
        intro j' hj'
        have := hprev (j' + 1) (Nat.succ_lt_succ hj')
        rw [cumWeight_cons_succ] at this
        linarith
      have hlt' : r < (acc + w) + cumWeight rest j := by
        rw [cumWeight_cons_succ] at hlt
        linarith
      exact ih (acc + w) j hj hprev' hlt'

theorem selectAltFrom_cases (r : ℚ) :
    ∀ (alts : List (ℚ × List Instr)) (acc : ℚ),
      selectAltFrom r acc alts = [] ∨ ∃ p ∈ alts, selectAltFrom r acc alts = p.2 := by
  intro alts
  induction alts with
  | nil => intro acc; left; rfl
  | cons p rest ih =>
    obtain ⟨w, seq⟩ := p
    intro acc
    by_cases h : r < acc + w
    · right
      exact ⟨(w, seq), List.mem_cons_self _ _, by simp [selectAltFrom, h]⟩
    · rcases ih (acc + w) with hnil | ⟨q, hq, heq⟩
      · left; simp [selectAltFrom, h, hnil]
      · right; exact ⟨q, List.mem_cons_of_mem _ hq, by simp [selectAltFrom, h, heq]⟩

/-- C1: a `Stochastic` node's `get_instructions` draws one value `r`
from its owned pseudorandom sequence, walks the cumulative weights in
declaration order, returns the instruction sequence of the first
alternative whose cumulative weight exceeds `r`, and returns the empty
(identity) sequence when `r` is at least the total weight. -/
theorem stochastic_selects_first_exceeding
    (rand : Nat → Nat → ℚ) (alts : List (ℚ × List Instr)) (seed : Nat)
    (targets : List Nat) (st : RandState)
    (hw : ∀ p ∈ alts, 0 ≤ p.1) (hsum : totalWeight alts ≤ 1)
    (hr : ∀ s n, 0 ≤ rand s n ∧ rand s n < 1) :
    getInstructions rand (.stochastic alts seed) targets st
      = ((selectAlt alts (rand seed (countOf seed st))).map (remapInstr targets),
          bump seed st)
    ∧ (∀ i : Nat, ∀ hi : i < alts.length,
        (∀ j, j < i → cumWeight alts j ≤ rand seed (countOf seed st)) →
        rand seed (countOf seed st) < cumWeight alts i →
        selectAlt alts (rand seed (countOf seed st)) = (alts.get ⟨i, hi⟩).2)
    ∧ (totalWeight alts ≤ rand seed (countOf seed st) →
        selectAlt alts (rand seed (countOf seed st)) = []) := by
  refine ⟨by simp [getInstructions], ?_, ?_⟩
  · intro i hi hprev hlt
    refine selectAltFrom_first _ alts 0 i hi ?_ ?_
    · intro j hj
      simpa using hprev j hj
    · simpa using hlt
  · intro hle
    refine selectAltFrom_total_le _ alts 0 hw ?_
    simpa using hle

/-- Witness for C1 at a concrete node: weights `1/2` and `1/10`, drawn
value `11/20`; the cumulative weights are `1/2 ≤ 11/20 < 3/5`, so the
second alternative is selected. -/
theorem stochastic_selects_first_exceeding_witness :
    selectAlt [((1:ℚ)/2, [Instr.mk "p" [0]]), ((1:ℚ)/10, [Instr.mk "x" [0]])] (11/20)
      = [Instr.mk "x" [0]] := by
  have h := stochastic_selects_first_exceeding (fun _ _ => (11:ℚ)/20)
    [((1:ℚ)/2, [Instr.mk "p" [0]]), ((1:ℚ)/10, [Instr.mk "x" [0]])] 2021 [0] []
    (by intro p hp; fin_cases hp <;> norm_num)
    (by norm_num [totalWeight])
    (by intro s n; norm_num)
  refine h.2.1 1 (by norm_num) ?_ ?_
  · intro j hj
    interval_cases j
    norm_num [cumWeight]
  · norm_num [cumWeight]

theorem countOf_getInstructions (rand : Nat → Nat → ℚ) (s : Nat) :
    ∀ (node : OpRep) (targets : List Nat) (st : RandState),
      countOf s (getInstructions rand node targets st).2 = countOf s st + occCount s node
  | .static instrs, targets, st => by simp [getInstructions, occCount]
  | .stochastic alts seed, targets, st => by
      by_cases h : seed = s
      · subst h
        simp [getInstructions, occCount, countOf_bump_self]
      · have h2 : s ≠ seed := fun hc => h hc.symm
        simp [getInstructions, occCount, h, countOf_bump_other s seed st h2]
  | .composed [], targets, st => by simp [getInstructions, occCount]
  | .composed (c :: cs), targets, st => by
      have h1 := countOf_getInstructions rand s c targets st
      have h2 := countOf_getInstructions rand s (.composed cs) targets
        (getInstructions rand c targets st).2
      simp only [getInstructions, occCount, h2, h1]
      omega
  | .embedded m c, targets, st => by
      have h1 := countOf_getInstructions rand s c (m.map (fun i => targets.getD i 0)) st
      simp only [getInstructions, occCount]
      exact h1

theorem occCount_replicate (s : Nat) (alts : List (ℚ × List Instr)) :
    ∀ n : Nat, occCount s (.composed (List.replicate n (.stochastic alts s))) = n := by
  intro n
  induction n with
  | zero => simp [List.replicate, occCount]
  | succ k ih =>
    simp [List.replicate_succ, occCount, ih]
    omega

/-- C9: each `get_instructions` call on a `Stochastic` node advances its
owned sequence by exactly one draw, and `n` occurrences of the same
`Stochastic` node inside a composite produce `n` draws — the sampling
step is never skipped or memoized. -/
theorem stochastic_one_draw_per_occurrence :
    (∀ (rand : Nat → Nat → ℚ) (alts : List (ℚ × List Instr)) (seed : Nat)
        (targets : List Nat) (st : RandState),
      (getInstructions rand (.stochastic alts seed) targets st).2 = bump seed st
      ∧ countOf seed (getInstructions rand (.stochastic alts seed) targets st).2
          = countOf seed st + 1)
    ∧ (∀ (rand : Nat → Nat → ℚ) (s : Nat) (alts : List (ℚ × List Instr)) (n : Nat)
        (targets : List Nat) (st : RandState),
      countOf s (getInstructions rand
          (.composed (List.replicate n (.stochastic alts s))) targets st).2
        = countOf s st + n) := by
  constructor
  · intro rand alts seed targets st
    refine ⟨by simp [getInstructions], ?_⟩
    simp [getInstructions, countOf_bump_self]
  · intro rand s alts n targets st
    rw [countOf_getInstructions, occCount_replicate]

theorem runCalls_stochastic_eq (rand : Nat → Nat → ℚ) (alts : List (ℚ × List Instr))
    (seed : Nat) (targets : List Nat) :
    ∀ (N : Nat) (st : RandState),
      runCalls rand (.stochastic alts seed) targets st N
        = (List.range N).map
            (fun k => (selectAlt alts (rand seed (countOf seed st + k))).map
              (remapInstr targets)) := by
  intro N
  induction N with
  | zero => intro st; simp [runCalls]
  | succ n ih =>
    intro st
    rw [List.range_succ_eq_map]
    simp only [runCalls, getInstructions, List.map_cons, List.map_map]
    congr 1
    rw [ih (bump seed st)]
    refine List.map_congr_left ?_
    intro k _
    simp only [Function.comp_apply, countOf_bump_self]
    have hk : countOf seed st + 1 + k = countOf seed st + (k + 1) := by omega
    rw [hk]

/-- C2: for a fixed seed, the alternatives a `Stochastic` node selects
over its first `N` calls depend only on the seed and the call count:
any two sampling states agreeing on the node's own draw counter (in
particular any two fresh runs, regardless of caller context or other
nodes' counters) yield identical selection sequences, and these equal
the closed-form sequence indexed by draw number. -/
theorem stochastic_sequence_deterministic
    (rand : Nat → Nat → ℚ) (alts : List (ℚ × List Instr)) (seed : Nat)
    (targets : List Nat) (N : Nat) (st₁ st₂ : RandState)
    (h : countOf seed st₁ = countOf seed st₂) :
    runCalls rand (.stochastic alts seed) targets st₁ N
      = runCalls rand (.stochastic alts seed) targets st₂ N
    ∧ runCalls rand (.stochastic alts seed) targets st₁ N
      = (List.range N).map
          (fun k => (selectAlt alts (rand seed (countOf seed st₁ + k))).map
            (remapInstr targets)) := by
  refine ⟨?_, runCalls_stochastic_eq rand alts seed targets N st₁⟩
  rw [runCalls_stochastic_eq, runCalls_stochastic_eq, h]

/-- Witness for C2: two different initial sampling states (an empty one
and one holding another node's counter) whose counters for seed `2021`
agree produce the same two-call selection sequence. -/
theorem stochastic_sequence_deterministic_witness :
    runCalls (fun s n => (1:ℚ) / (s + n + 2)) (.stochastic [] 2021) [0] [] 2
      = runCalls (fun s n => (1:ℚ) / (s + n + 2)) (.stochastic [] 2021) [0]
          [(7, 5)] 2
    ∧ runCalls (fun s n => (1:ℚ) / (s + n + 2)) (.stochastic [] 2021) [0] [] 2
      = (List.range 2).map
          (fun k => (selectAlt [] ((fun s n => (1:ℚ) / (s + n + 2)) 2021
              (countOf 2021 ([] : RandState) + k))).map (remapInstr [0])) :=
  stochastic_sequence_deterministic (fun s n => (1:ℚ) / (s + n + 2)) [] 2021 [0] 2
    [] [(7, 5)] (by decide)

/-- C3: a `Static` node's `get_instructions` returns its fixed
instructions with each local index `i` replaced by `target_labels[i]`,
and the spec's pinned example holds: `Embedded` with targets `[1]` on a
2-qubit register around a `Static` child `"x 0"` emits `"x 1"`. -/
theorem static_remaps_local_indices
    (rand : Nat → Nat → ℚ) (instrs : List Instr) (targets : List Nat) (st : RandState)
    (h : ∀ ins ∈ instrs, ∀ a ∈ ins.args, a < targets.length) :
    getInstructions rand (.static instrs) targets st = (instrs.map (remapInstr targets), st)
    ∧ (∀ ins ∈ instrs, (remapInstr targets ins).op = ins.op
        ∧ (remapInstr targets ins).args.length = ins.args.length
        ∧ ∀ k, k < ins.args.length →
            (remapInstr targets ins).args.getD k 0 = targets.getD (ins.args.getD k 0) 0)
    ∧ getInstructions rand (.embedded [1] (.static [Instr.mk "x" [0]])) [0, 1] st
        = ([Instr.mk "x" [1]], st) := by
  refine ⟨by simp [getInstructions], ?_, by simp [getInstructions, remapInstr]⟩
  intro ins hins
  refine ⟨rfl, by simp [remapInstr], ?_⟩
  intro k hk
  have hk' : k < (ins.args.map (fun a => targets.getD a 0)).length := by
    simpa using hk
  simp only [remapInstr]
  rw [List.getD_eq_getElem _ _ hk', List.getD_eq_getElem _ _ hk, List.getElem_map]

/-- Witness for C3: the instruction `"x 0"` remapped onto target labels
`[5, 7]` becomes `"x 5"`. -/
theorem static_remaps_local_indices_witness :
    getInstructions (fun _ _ => (0:ℚ)) (.static [Instr.mk "x" [0]]) [5, 7] []
      = ([Instr.mk "x" [5]], []) :=
  (static_remaps_local_indices (fun _ _ => (0:ℚ)) [Instr.mk "x" [0]] [5, 7] []
    (by decide)).1

theorem composed_append (rand : Nat → Nat → ℚ) (targets : List Nat) :
    ∀ (cs ds : List OpRep) (st : RandState),
      getInstructions rand (.composed (cs ++ ds)) targets st
        = ((getInstructions rand (.composed cs) targets st).1
            ++ (getInstructions rand (.composed ds) targets
                  (getInstructions rand (.composed cs) targets st).2).1,
           (getInstructions rand (.composed ds) targets
              (getInstructions rand (.composed cs) targets st).2).2) := by
  intro cs
  induction cs with
  | nil => intro ds st; simp [getInstructions]
  | cons c cs ih =>
    intro ds st
    simp only [List.cons_append, getInstructions, ih, List.append_assoc]

/-- C4: a `Composed` node's instructions are the concatenation of its
children's instructions in child order (same target labels for each
child, sampling state threaded left to right), and composition is
associative: `Composed(Composed(A,B),C)` and `Composed(A,Composed(B,C))`
produce identical flattened instruction sequences and final states. -/
theorem composed_concatenation_associative
    (rand : Nat → Nat → ℚ) (targets : List Nat) :
    (∀ (cs ds : List OpRep) (st : RandState),
      getInstructions rand (.composed (cs ++ ds)) targets st
        = ((getInstructions rand (.composed cs) targets st).1
            ++ (getInstructions rand (.composed ds) targets
                  (getInstructions rand (.composed cs) targets st).2).1,
           (getInstructions rand (.composed ds) targets
              (getInstructions rand (.composed cs) targets st).2).2))
    ∧ (∀ (a b : OpRep) (st : RandState),
        (getInstructions rand (.composed [a, b]) targets st).1
          = (getInstructions rand a targets st).1
            ++ (getInstructions rand b targets
                  (getInstructions rand a targets st).2).1)
    ∧ (∀ (a b c : OpRep) (st : RandState),
        getInstructions rand (.composed [.composed [a, b], c]) targets st
          = getInstructions rand (.composed [a, .composed [b, c]]) targets st) := by
  refine ⟨composed_append rand targets, ?_, ?_⟩
  · intro a b st
    simp [getInstructions]
  · intro a b c st
    simp [getInstructions, List.append_assoc]

theorem args_in_targets (rand : Nat → Nat → ℚ) :
    ∀ (node : OpRep) (targets : List Nat) (st : RandState),
      wfRep node targets.length = true →
      ∀ ins ∈ (getInstructions rand node targets st).1, ∀ a ∈ ins.args, a ∈ targets
  | .static instrs, targets, st => by
      intro hwf ins hins a ha
      simp only [getInstructions, List.mem_map] at hins
      obtain ⟨ins0, hins0, rfl⟩ := hins
      simp only [remapInstr, List.mem_map] at ha
      obtain ⟨a0, ha0, rfl⟩ := ha
      simp only [wfRep, List.all_eq_true, decide_eq_true_eq] at hwf
      have hlt := hwf ins0 hins0 a0 ha0
      rw [List.getD_eq_getElem _ _ hlt]
      exact List.getElem_mem hlt
  | .stochastic alts seed, targets, st => by
      intro hwf ins hins a ha
      simp only [getInstructions, List.mem_map] at hins
      obtain ⟨ins0, hins0, rfl⟩ := hins
      simp only [remapInstr, List.mem_map] at ha
      obtain ⟨a0, ha0, rfl⟩ := ha
      rcases selectAltFrom_cases (rand seed (countOf seed st)) alts 0 with hnil | ⟨p, hp, heq⟩
      · rw [selectAlt, hnil] at hins0
        simp at hins0
      · rw [selectAlt, heq] at hins0
        simp only [wfRep, List.all_eq_true, decide_eq_true_eq] at hwf
        have hlt := hwf p hp ins0 hins0 a0 ha0
        rw [List.getD_eq_getElem _ _ hlt]
        exact List.getElem_mem hlt
  | .composed [], targets, st => by
      intro hwf ins hins
      simp [getInstructions] at hins
  | .composed (c :: cs), targets, st => by
      intro hwf ins hins a ha
      simp only [wfRep, Bool.and_eq_true] at hwf
      simp only [getInstructions, List.mem_append] at hins
      rcases hins with hins | hins
      · exact args_in_targets rand c targets st hwf.1 ins hins a ha
      · exact args_in_targets rand (.composed cs) targets _ hwf.2 ins hins a ha
  | .embedded m c, targets, st => by
      intro hwf ins hins a ha
      simp only [wfRep, Bool.and_eq_true, List.all_eq_true, decide_eq_true_eq] at hwf
      have hlen : (m.map (fun i => targets.getD i 0)).length = m.length := by simp
      have hc : wfRep c (m.map (fun i => targets.getD i 0)).length = true := by
        rw [hlen]; exact hwf.2
      have hmem := args_in_targets rand c (m.map (fun i => targets.getD i 0)) st hc ins
        (by simpa [getInstructions] using hins) a ha
      simp only [List.mem_map] at hmem
      obtain ⟨i, hi, rfl⟩ := hmem
      have hlt := hwf.1 i hi
      rw [List.getD_eq_getElem _ _ hlt]
      exact List.getElem_mem hlt

/-- C10: an `Embedded` node emits only qubit labels in the range of its
index mapping — it simply forwards its child called on the mapped
labels, inserting no padding, so unmapped qubits of the enclosing
register never appear in any emitted instruction. -/
theorem embedded_emits_only_mapped_labels
    (rand : Nat → Nat → ℚ) (mapping : List Nat) (child : OpRep)
    (targets : List Nat) (st : RandState)
    (hwf : wfRep (.embedded mapping child) targets.length = true) :
    getInstructions rand (.embedded mapping child) targets st
      = getInstructions rand child (mapping.map (fun i => targets.getD i 0)) st
    ∧ ∀ ins ∈ (getInstructions rand (.embedded mapping child) targets st).1,
        ∀ a ∈ ins.args, a ∈ mapping.map (fun i => targets.getD i 0) := by
  refine ⟨by simp [getInstructions], ?_⟩
  intro ins hins a ha
  simp only [wfRep, Bool.and_eq_true] at hwf
  have hc : wfRep child (mapping.map (fun i => targets.getD i 0)).length = true := by
    simpa using hwf.2
  exact args_in_targets rand child (mapping.map (fun i => targets.getD i 0)) st hc ins
    (by simpa [getInstructions] using hins) a ha

/-- Witness for C10: the embedding with mapping `[1]` on a 2-qubit
register forwards its static child called on label `[1]`. -/
theorem embedded_emits_only_mapped_labels_witness :
    getInstructions (fun _ _ => (0:ℚ)) (.embedded [1] (.static [Instr.mk "x" [0]])) [0, 1] []
      = getInstructions (fun _ _ => (0:ℚ)) (.static [Instr.mk "x" [0]])
          ([1].map (fun i => [0, 1].getD i 0)) [] :=
  (embedded_emits_only_mapped_labels (fun _ _ => (0:ℚ)) [1] (.static [Instr.mk "x" [0]])
    [0, 1] [] (by simp [wfRep])).1

theorem mem_distinctKeys (x : List Bool) :
    ∀ l : List (List Bool), x ∈ distinctKeys l ↔ x ∈ l := by
  intro l
  induction l with
  | nil => simp [distinctKeys]
  | cons b rest ih =>
    simp only [distinctKeys, List.mem_cons, List.mem_filter, Bool.not_eq_true', ih,
      beq_eq_false_iff_ne, ne_eq]
    constructor
    · rintro (rfl | ⟨hm, _⟩)
      · exact Or.inl rfl
      · exact Or.inr hm
    · rintro (rfl | hm)
      · exact Or.inl rfl
      · by_cases hxb : x = b
        · exact Or.inl hxb
        · exact Or.inr ⟨hm, hxb⟩

theorem distinctKeys_nodup : ∀ l : List (List Bool), (distinctKeys l).Nodup := by
  intro l
  induction l with
  | nil => simp [distinctKeys]
  | cons b rest ih =>
    simp only [distinctKeys, List.nodup_cons]
    refine ⟨?_, ih.filter _⟩
    intro hmem
    have hb := (List.mem_filter.mp hmem).2
    simp at hb

theorem probOf_map_keys (keys : List (List Bool)) (f : List Bool → ℚ) (b : List Bool)
    (h : keys.Nodup) :
    probOf (keys.map (fun k => (k, f k))) b = if b ∈ keys then f b else 0 := by
  induction keys with
  | nil => simp [probOf]
  | cons k ks ih =>
    simp only [List.nodup_cons] at h
    by_cases hkb : k = b
    · subst hkb
      simp only [List.map_cons, probOf, List.filter_cons, beq_self_eq_true, if_pos,
        List.mem_cons, true_or, if_true]
      have hrest := ih h.2
      simp only [probOf] at hrest
      simp [hrest, if_neg h.1]
    · have hne : ¬ ((k, f k).1 == b) = true := by simpa using hkb
      simp only [List.map_cons, probOf, List.filter_cons, hne, if_false, List.mem_cons]
      have hrest := ih h.2
      simp only [probOf] at hrest
      have hbk : ¬ b = k := fun hc => hkb hc.symm
      simp [hrest, hbk]

/-- C7: with `S ≥ 1` shots over the same measured subset, the
aggregator returns the sparse distribution mapping each distinct
observed bitstring to its occurrence count divided by `S` (unobserved
bitstrings implicitly zero); the spec's pinned example
`[00, 00, 01, 00] ↦ {00: 3/4, 01: 1/4}` holds, and fewer than one shot
is rejected with a configuration error. -/
theorem aggregator_frequency_distribution (shots : List (List Bool))
    (h : 1 ≤ shots.length) :
    (∃ dist, aggregate shots = .ok dist
      ∧ (∀ p ∈ dist, p.1 ∈ shots
          ∧ p.2 = (occurrences p.1 shots : ℚ) / (shots.length : ℚ))
      ∧ (∀ b ∈ shots,
          (b, (occurrences b shots : ℚ) / (shots.length : ℚ)) ∈ dist))
    ∧ aggregate [] = .error .configurationError
    ∧ aggregate [[false, false], [false, false], [false, true], [false, false]]
        = .ok [([false, false], 3/4), ([false, true], 1/4)] := by
  refine ⟨?_, by simp [aggregate], ?_⟩
  · refine ⟨(distinctKeys shots).map
      (fun b => (b, (occurrences b shots : ℚ) / (shots.length : ℚ))), ?_, ?_, ?_⟩
    · simp only [aggregate, if_neg (by omega : ¬ shots.length < 1)]
    · intro p hp
      simp only [List.mem_map] at hp
      obtain ⟨b, hb, rfl⟩ := hp
      exact ⟨(mem_distinctKeys b shots).mp hb, rfl⟩
    · intro b hb
      exact List.mem_map_of_mem _ ((mem_distinctKeys b shots).mpr hb)
  · simp only [aggregate, distinctKeys, occurrences]
    norm_num

/-- Witness for C7 at the spec's pinned example: four shots
`[00, 00, 01, 00]` yield the distribution `{00: 3/4, 01: 1/4}`. -/
theorem aggregator_frequency_distribution_witness :
    aggregate [[false, false], [false, false], [false, true], [false, false]]
      = .ok [([false, false], 3/4), ([false, true], 1/4)] :=
  (aggregator_frequency_distribution
    [[false, false], [false, false], [false, true], [false, false]]
    (by norm_num)).2.2

/-- C8: marginalizing a distribution over qubit set `Q` to a subset
`Qp` assigns to each restricted bitstring the sum of the probabilities
of all original bitstrings agreeing with it on `Qp` (bits outside `Qp`
ignored); the spec's pinned example marginalizing
`{00: 1/2, 01: 1/5, 10: 1/5, 11: 1/10}` onto qubit 0 yields
`{0: 7/10, 1: 3/10}`. -/
theorem marginalization_sums_agreeing (Q Qp : List Nat)
    (dist : List (List Bool × ℚ)) (k : List Bool) :
    probOf (marginalize Q Qp dist) k
      = ((dist.filter (fun p => restrictTo Q Qp p.1 == k)).map Prod.snd).sum
    ∧ marginalize [0, 1] [0]
        [([false, false], 1/2), ([false, true], 1/5),
         ([true, false], 1/5), ([true, true], 1/10)]
      = [([false], 7/10), ([true], 3/10)] := by
  constructor
  · rw [marginalize, probOf_map_keys _ _ _ (distinctKeys_nodup _)]
    by_cases hk : k ∈ distinctKeys (dist.map (fun p => restrictTo Q Qp p.1))
    · rw [if_pos hk]
    · rw [if_neg hk]
      have hnot : ∀ p ∈ dist, ¬ (restrictTo Q Qp p.1 == k) = true := by
        intro p hp hbeq
        apply hk
        rw [mem_distinctKeys]
        exact beq_iff_eq.mp hbeq ▸ List.mem_map_of_mem _ hp
      rw [List.filter_eq_nil_iff.mpr hnot]
      simp
  · simp only [marginalize, restrictTo, posIn, distinctKeys]
    norm_num [List.findIdx_cons, List.filter_cons]

theorem mem_canonicalize (x : LayerEntry) (layer : Layer) :
    x ∈ canonicalize layer ↔ x ∈ layer := by
  simp [canonicalize, List.mem_mergeSort]

theorem translateEntries_error_unknown (rand : Nat → Nat → ℚ)
    (table : List (String × OpRep)) :
    ∀ (es : List LayerEntry) (st : RandState) (e : TransError),
      translateEntries rand table es st = .error e → e = .unknownOperator := by
  intro es
  induction es with
  | nil => intro st e h; simp [translateEntries] at h
  | cons x xs ih =>
    intro st e h
    cases hl : lookupTable table x.label with
    | none =>
      simp only [translateEntries, hl] at h
      simpa using h.symm
    | some rep =>
      cases hr : translateEntries rand table xs
          (getInstructions rand rep x.targets st).2 with
      | error e' =>
        simp only [translateEntries, hl, hr] at h
        have he : e' = e := by simpa using h
        exact he ▸ ih _ e' hr
      | ok q =>
        simp only [translateEntries, hl, hr] at h
        simp at h

theorem translateEntries_missing (rand : Nat → Nat → ℚ)
    (table : List (String × OpRep)) :
    ∀ (es : List LayerEntry) (st : RandState),
      (∃ x ∈ es, lookupTable table x.label = none) →
      translateEntries rand table es st = .error .unknownOperator := by
  intro es
  induction es with
  | nil => intro st h; simp at h
  | cons x xs ih =>
    intro st h
    cases hl : lookupTable table x.label with
    | none => simp only [translateEntries, hl]
    | some rep =>
      obtain ⟨y, hy, hyl⟩ := h
      rcases List.mem_cons.mp hy with rfl | hmem
      · rw [hl] at hyl; simp at hyl
      · have hih := ih (getInstructions rand rep x.targets st).2 ⟨y, hmem, hyl⟩
        simp only [translateEntries, hl, hih]

theorem translateEntries_total (rand : Nat → Nat → ℚ)
    (table : List (String × OpRep)) :
    ∀ (es : List LayerEntry) (st : RandState),
      (∀ x ∈ es, ∃ rep, lookupTable table x.label = some rep) →
      ∃ out, translateEntries rand table es st = .ok out := by
  intro es
  induction es with
  | nil => intro st _; exact ⟨_, rfl⟩
  | cons x xs ih =>
    intro st h
    obtain ⟨rep, hrep⟩ := h x (List.mem_cons_self x xs)
    obtain ⟨out, hout⟩ := ih (getInstructions rand rep x.targets st).2
      (fun y hy => h y (List.mem_cons_of_mem _ hy))
    exact ⟨((getInstructions rand rep x.targets st).1 ++ out.1, out.2),
      by simp only [translateEntries, hrep, hout]⟩

theorem translateLayers_missing (rand : Nat → Nat → ℚ)
    (table : List (String × OpRep)) :
    ∀ (ls : List Layer) (st : RandState),
      (∀ l ∈ ls, layerOk l = true) →
      (∃ l ∈ ls, ∃ x ∈ l, lookupTable table x.label = none) →
      translateLayers rand table ls st = .error .unknownOperator := by
  intro ls
  induction ls with
  | nil => intro st _ h; simp at h
  | cons l ls ih =>
    intro st hok h
    have hl : layerOk l = true := hok l (List.mem_cons_self l ls)
    by_cases hthis : ∃ x ∈ l, lookupTable table x.label = none
    · obtain ⟨x, hx, hxl⟩ := hthis
      have he := translateEntries_missing rand table (canonicalize l) st
        ⟨x, (mem_canonicalize x l).mpr hx, hxl⟩
      simp only [translateLayers, translateLayer, hl, if_true, he]
    · have hrest : ∃ l' ∈ ls, ∃ x ∈ l', lookupTable table x.label = none := by
        obtain ⟨l', hl', hx⟩ := h
        rcases List.mem_cons.mp hl' with rfl | hmem
        · exact absurd hx hthis
        · exact ⟨l', hmem, hx⟩
      cases he : translateEntries rand table (canonicalize l) st with
      | error e =>
        have he' := translateEntries_error_unknown rand table _ _ _ he
        subst he'
        simp only [translateLayers, translateLayer, hl, if_true, he]
      | ok p =>
        have hih := ih p.2 (fun l' hl' => hok l' (List.mem_cons_of_mem _ hl')) hrest
        simp only [translateLayers, translateLayer, hl, if_true, he, hih]

theorem translateLayers_invalid (rand : Nat → Nat → ℚ)
    (table : List (String × OpRep)) :
    ∀ (ls : List Layer) (st : RandState),
      (∀ l ∈ ls, ∀ x ∈ l, ∃ rep, lookupTable table x.label = some rep) →
      (∃ l ∈ ls, layerOk l = false) →
      translateLayers rand table ls st = .error .invalidLayer := by
  intro ls
  induction ls with
  | nil => intro st _ h; simp at h
  | cons l ls ih =>
    intro st hall h
    by_cases hl : layerOk l = true
    · obtain ⟨out, hout⟩ := translateEntries_total rand table (canonicalize l) st
        (fun x hx => hall l (List.mem_cons_self l ls) x ((mem_canonicalize x l).mp hx))
      have hrest : ∃ l' ∈ ls, layerOk l' = false := by
        obtain ⟨l', hl', hbad⟩ := h
        rcases List.mem_cons.mp hl' with rfl | hmem
        · rw [hl] at hbad; simp at hbad
        · exact ⟨l', hmem, hbad⟩
      have hih := ih out.2 (fun l' hl' => hall l' (List.mem_cons_of_mem _ hl')) hrest
      simp only [translateLayers, translateLayer, hl, if_true, hout, hih]
    · have hl' : layerOk l = false := by
        cases hc : layerOk l with
        | true => exact absurd hc hl
        | false => rfl
      simp only [translateLayers, translateLayer, hl', Bool.false_eq_true, if_false]

/-- C5: translation fails fast, before any external process is spawned
and with no partial effect: with all layers valid, an operator label
absent from the lookup table makes `translate` fail with
`UnknownOperatorError`; with all labels present, a layer whose entries
share a target qubit makes it fail with `InvalidLayerError`; in both
cases `probabilities` returns that error having spawned zero external
processes and produced no instructions. -/
theorem translation_fails_fast (rand : Nat → Nat → ℚ)
    (table : List (String × OpRep)) (N : Nat) (measured : List Nat)
    (layers : List Layer) (oracle : Nat → Nat → Except ShotError (List Bool))
    (S R : Nat) (st : RandState) (hS : 1 ≤ S) :
    ((∀ l ∈ layers, layerOk l = true) →
      (∃ l ∈ layers, ∃ x ∈ l, lookupTable table x.label = none) →
      translate rand table N measured layers st = .error .unknownOperator
        ∧ probabilities rand table N measured layers oracle S R st
            = (.error (.trans .unknownOperator), 0))
    ∧ ((∀ l ∈ layers, ∀ x ∈ l, ∃ rep, lookupTable table x.label = some rep) →
      (∃ l ∈ layers, layerOk l = false) →
      translate rand table N measured layers st = .error .invalidLayer
        ∧ probabilities rand table N measured layers oracle S R st
            = (.error (.trans .invalidLayer), 0)) := by
  constructor
  · intro hok hmiss
    have ht : translate rand table N measured layers st = .error .unknownOperator := by
      simp only [translate, translateLayers_missing rand table layers st hok hmiss]
    refine ⟨ht, ?_⟩
    simp only [probabilities, if_neg (by omega : ¬ S < 1), ht]
  · intro hall hbad
    have ht : translate rand table N measured layers st = .error .invalidLayer := by
      simp only [translate, translateLayers_invalid rand table layers st hall hbad]
    refine ⟨ht, ?_⟩
    simp only [probabilities, if_neg (by omega : ¬ S < 1), ht]

/-- Witness for C5 at the spec's pinned example: one layer whose two
entries both target qubit 2 (labels present in the table) makes the
whole call fail with `InvalidLayerError` and zero spawned processes. -/
theorem translation_fails_fast_witness :
    translate (fun _ _ => (0:ℚ)) [("Gx", .static [Instr.mk "x" [0]])] 3 [0]
        [[LayerEntry.mk "Gx" [2], LayerEntry.mk "Gx" [2]]] []
      = .error .invalidLayer
    ∧ probabilities (fun _ _ => (0:ℚ)) [("Gx", .static [Instr.mk "x" [0]])] 3 [0]
        [[LayerEntry.mk "Gx" [2], LayerEntry.mk "Gx" [2]]]
        (fun _ _ => .ok [false]) 1 0 []
      = (.error (.trans .invalidLayer), 0) :=
  (translation_fails_fast (fun _ _ => (0:ℚ)) [("Gx", .static [Instr.mk "x" [0]])] 3 [0]
    [[LayerEntry.mk "Gx" [2], LayerEntry.mk "Gx" [2]]] (fun _ _ => .ok [false]) 1 0 []
    (by norm_num)).2
    (by
      intro l hl x hx
      simp only [List.mem_singleton] at hl
      subst hl
      refine ⟨.static [Instr.mk "x" [0]], ?_⟩
      have hlab : x.label = "Gx" := by
        rcases List.mem_cons.mp hx with rfl | hx2
        · rfl
        · rcases List.mem_cons.mp hx2 with rfl | hx3
          · rfl
          · simp at hx3
      rw [hlab]
      simp [lookupTable])
    ⟨[LayerEntry.mk "Gx" [2], LayerEntry.mk "Gx" [2]], by simp,
      by simp [layerOk, entriesDisjoint]⟩

theorem runShotsFrom_ok_length (oracle : Nat → Nat → Except ShotError (List Bool))
    (R : Nat) :
    ∀ (s i : Nat) (l : List (List Bool)),
      (runShotsFrom oracle R i s).1 = .ok l → l.length = s := by
  intro s
  induction s with
  | zero =>
    intro i l h
    simp only [runShotsFrom] at h
    cases h
    rfl
  | succ n ih =>
    intro i l h
    simp only [runShotsFrom] at h
    cases hp : (runShot (oracle i) R).1 with
    | error e => rw [hp] at h; simp at h
    | ok bits =>
      rw [hp] at h
      cases hq : (runShotsFrom oracle R (i + 1) n).1 with
      | error e => rw [hq] at h; simp at h
      | ok rest =>
        rw [hq] at h
        have hl : bits :: rest = l := by simpa using h
        have := ih (i + 1) rest hq
        rw [← hl]
        simp [this]

theorem runShotFrom_all_error (oracle : Nat → Except ShotError (List Bool)) :
    ∀ (r a : Nat), (∀ k, a ≤ k → k ≤ a + r → ∃ e, oracle k = .error e) →
      ∃ e, (runShotFrom oracle a r).1 = .error e := by
  intro r
  induction r with
  | zero =>
    intro a h
    obtain ⟨e, he⟩ := h a (le_refl a) (by omega)
    exact ⟨e, by simp [runShotFrom, he]⟩
  | succ n ih =>
    intro a h
    obtain ⟨e, he⟩ := h a (le_refl a) (by omega)
    obtain ⟨e', he'⟩ := ih (a + 1) (fun k hk1 hk2 => h k (by omega) (by omega))
    exact ⟨e', by simp only [runShotFrom, he, he']⟩

theorem runShotsFrom_error_of_shot (oracle : Nat → Nat → Except ShotError (List Bool))
    (R : Nat) :
    ∀ (s i : Nat),
      (∃ j, i ≤ j ∧ j < i + s ∧ ∃ e, (runShot (oracle j) R).1 = .error e) →
      ∃ e, (runShotsFrom oracle R i s).1 = .error e := by
  intro s
  induction s with
  | zero =>
    intro i h
    obtain ⟨j, hj1, hj2, _⟩ := h
    omega
  | succ n ih =>
    intro i h
    cases hp : (runShot (oracle i) R).1 with
    | error e => exact ⟨e, by simp only [runShotsFrom, hp]⟩
    | ok bits =>
      obtain ⟨j, hj1, hj2, e, hje⟩ := h
      have hji : j ≠ i := by
        intro hc
        rw [hc, hp] at hje
        simp at hje
      obtain ⟨e', he'⟩ := ih (i + 1) ⟨j, by omega, by omega, e, hje⟩
      refine ⟨e', ?_⟩
      simp only [runShotsFrom, hp, he']

/-- C6: a `probabilities` call is all-or-nothing over its shots: a
successful call returns the aggregation of exactly `shot_count`
collected shot results, and when some shot's execution-time failure
persists through every attempt allowed by the retry budget `R`, the
whole call fails — no distribution over fewer than `shot_count` shots is
ever returned. -/
theorem probabilities_all_or_nothing (rand : Nat → Nat → ℚ)
    (table : List (String × OpRep)) (N : Nat) (measured : List Nat)
    (layers : List Layer) (oracle : Nat → Nat → Except ShotError (List Bool))
    (S R : Nat) (st : RandState) (hS : 1 ≤ S) :
    (∀ dist n, probabilities rand table N measured layers oracle S R st = (.ok dist, n) →
      ∃ shots, (runShots oracle R S).1 = .ok shots ∧ shots.length = S
        ∧ aggregate shots = .ok dist)
    ∧ ((∃ i, i < S ∧ ∀ a, a ≤ R → ∃ e, oracle i a = .error e) →
      ∀ dist n, probabilities rand table N measured layers oracle S R st ≠ (.ok dist, n)) := by
  constructor
  · intro dist n h
    simp only [probabilities, if_neg (by omega : ¬ S < 1)] at h
    cases htr : translate rand table N measured layers st with
    | error e => simp only [htr] at h; simp at h
    | ok prog =>
      simp only [htr] at h
      cases hrs : (runShots oracle R S).1 with
      | error e => simp only [hrs] at h; simp at h
      | ok shots =>
        simp only [hrs] at h
        cases hag : aggregate shots with
        | error e => simp only [hag] at h; simp at h
        | ok dist' =>
          simp only [hag] at h
          have hd : dist' = dist := by
            have := congrArg Prod.fst h
            simpa using this
          exact ⟨shots, rfl, runShotsFrom_ok_length oracle R S 0 shots hrs, hd ▸ hag⟩
  · intro hex dist n h
    obtain ⟨i, hiS, hfail⟩ := hex
    have hshot : ∃ e, (runShot (oracle i) R).1 = .error e := by
      refine runShotFrom_all_error (oracle i) R 0 ?_
      intro k hk1 hk2
      exact hfail k (by omega)
    obtain ⟨e, he⟩ := runShotsFrom_error_of_shot oracle R S 0
      ⟨i, by omega, by omega, hshot⟩
    simp only [probabilities, if_neg (by omega : ¬ S < 1)] at h
    cases htr : translate rand table N measured layers st with
    | error e' => simp only [htr] at h; simp at h
    | ok prog =>
      simp only [htr, runShots] at h
      simp only [he] at h
      simp at h

/-- Witness for C6: with an oracle that always times out, one requested
shot and a zero retry budget, the call cannot return the empty
distribution (or any other): applying the theorem at this input shows
the failure escalates. -/
theorem probabilities_all_or_nothing_witness :
    probabilities (fun _ _ => (0:ℚ)) [] 1 [0] [] (fun _ _ => .error .timeout) 1 0 []
      ≠ (.ok [], 1) :=
  (probabilities_all_or_nothing (fun _ _ => (0:ℚ)) [] 1 [0] []
    (fun _ _ => .error .timeout) 1 0 [] (by norm_num)).2
    ⟨0, by norm_num, fun a _ => ⟨.timeout, rfl⟩⟩ [] 1

end PyGSTiCHP
